import Mathlib

/-!
Verification of the RGB / class-index segmentation-mask codec of
`src/main.py` (functions `oneDim2rgbLabel` and `rgb2oneDimLabel`, and the
label table `lblDict`).

Arrays are modelled numpy-style: a shape (a list of dimension sizes) plus a
flat row-major data list of integers.  The two converters are translated
from the source loop by loop: in particular the encoder's per-pixel
assignment `imgBin[i, j] = v` writes the entire row slice (indices
`(i*h + j)*w .. (i*h + j)*w + w - 1` of the flat output), exactly as the
numpy broadcast does.
-/

/-- The 24 class color triplets of `lblDict` in `src/main.py`, in class-index
order 0..23 (unlabeled, paved-area, dirt, grass, gravel, water, rocks, pool,
vegetation, roof, wall, window, door, fence, fence-pole, person, dog, car,
bicycle, tree, bald-tree, ar-marker, obstacle, conflicting). -/
def lblColors : List (List Int) :=
  [[0, 0, 0], [128, 64, 128], [0, 76, 130], [0, 102, 0], [87, 103, 112],
   [168, 42, 28], [30, 41, 48], [89, 50, 0], [35, 142, 107], [70, 70, 70],
   [156, 102, 102], [12, 228, 254], [12, 148, 254], [153, 153, 190],
   [153, 153, 153], [96, 22, 255], [0, 51, 102], [150, 143, 9],
   [32, 11, 119], [0, 51, 51], [190, 250, 190], [146, 150, 112],
   [115, 135, 2], [0, 0, 255]]

/-- The per-pixel if/elif chain of `oneDim2rgbLabel` (`src/main.py` lines
205-252): a mask value in 0..23 selects the corresponding `lblDict` triplet;
any other value matches no branch, so the zero-initialized output pixel keeps
the black triplet `[0, 0, 0]`. -/
def decodePixel (v : Int) : List Int :=
  if v = 0 then [0, 0, 0]
  else if v = 1 then [128, 64, 128]
  else if v = 2 then [0, 76, 130]
  else if v = 3 then [0, 102, 0]
  else if v = 4 then [87, 103, 112]
  else if v = 5 then [168, 42, 28]
  else if v = 6 then [30, 41, 48]
  else if v = 7 then [89, 50, 0]
  else if v = 8 then [35, 142, 107]
  else if v = 9 then [70, 70, 70]
  else if v = 10 then [156, 102, 102]
  else if v = 11 then [12, 228, 254]
  else if v = 12 then [12, 148, 254]
  else if v = 13 then [153, 153, 190]
  else if v = 14 then [153, 153, 153]
  else if v = 15 then [96, 22, 255]
  else if v = 16 then [0, 51, 102]
  else if v = 17 then [150, 143, 9]
  else if v = 18 then [32, 11, 119]
  else if v = 19 then [0, 51, 51]
  else if v = 20 then [190, 250, 190]
  else if v = 21 then [146, 150, 112]
  else if v = 22 then [115, 135, 2]
  else if v = 23 then [0, 0, 255]
  else [0, 0, 0]

/-- The per-pixel if/elif chain of `rgb2oneDimLabel` (`src/main.py` lines
296-343): the channel slice `img[i, j, k, :]` is compared by `np.array_equal`
against each registered triplet in class order; `some idx` is the class whose
write fires, `none` means no branch matches and nothing is written.
`np.array_equal` is false whenever the shapes differ, which list equality on
the materialized slice reproduces. -/
def encodePixel (px : List Int) : Option Int :=
  if px = [0, 0, 0] then some 0
  else if px = [128, 64, 128] then some 1
  else if px = [0, 76, 130] then some 2
  else if px = [0, 102, 0] then some 3
  else if px = [87, 103, 112] then some 4
  else if px = [168, 42, 28] then some 5
  else if px = [30, 41, 48] then some 6
  else if px = [89, 50, 0] then some 7
  else if px = [35, 142, 107] then some 8
  else if px = [70, 70, 70] then some 9
  else if px = [156, 102, 102] then some 10
  else if px = [12, 228, 254] then some 11
  else if px = [12, 148, 254] then some 12
  else if px = [153, 153, 190] then some 13
  else if px = [153, 153, 153] then some 14
  else if px = [96, 22, 255] then some 15
  else if px = [0, 51, 102] then some 16
  else if px = [150, 143, 9] then some 17
  else if px = [32, 11, 119] then some 18
  else if px = [0, 51, 51] then some 19
  else if px = [190, 250, 190] then some 20
  else if px = [146, 150, 112] then some 21
  else if px = [115, 135, 2] then some 22
  else if px = [0, 0, 255] then some 23
  else none

/-- A numpy ndarray of integers: a shape tuple and the flat row-major data.
Well-formed arrays satisfy `data.length = shape.prod`. -/
structure NpArray where
  shape : List Nat
  data : List Int
deriving DecidableEq

/-- The iteration space of the loop nest `for k in range(w)` at a fixed image
`i` and row `j`: the triples `(i, j, 0), ..., (i, j, w-1)` in order. -/
def rowTriples (i j w : Nat) : List (Nat × Nat × Nat) :=
  (List.range w).map fun k => (i, j, k)

/-- The iteration space of the two outer loops `for i in range(n)`,
`for j in range(h)`, in execution order. -/
def pairList (n h : Nat) : List (Nat × Nat) :=
  (List.range n).flatMap fun i => (List.range h).map fun j => (i, j)

/-- The full iteration space of the three nested loops, in execution order. -/
def tripleList (n h w : Nat) : List (Nat × Nat × Nat) :=
  (pairList n h).flatMap fun p => rowTriples p.1 p.2 w

/-- Decoder `oneDim2rgbLabel` (`src/main.py` lines 135-256).  Rejects inputs
that are not 4-dimensional (`TypeError`) or whose trailing axis is not 1
(`ValueError`); otherwise allocates a zero `(n, h, w, 3)` array and writes
`decodePixel` of the mask value into each pixel's three channels.  The flat
index of mask value `(i, j, k)` in a `(n, h, w, 1)` array is
`(i*h + j)*w + k`. -/
def oneDim2rgbLabel (imgBin : NpArray) : Except String NpArray :=
  if imgBin.shape.length ≠ 4 then
    Except.error "TypeError: Array is not 4D"
  else if imgBin.shape.getD 3 0 ≠ 1 then
    Except.error "ValueError: Array must have format (numImg, width, height, 1)"
  else
    let n := imgBin.shape.getD 0 0
    let h := imgBin.shape.getD 1 0
    let w := imgBin.shape.getD 2 0
    Except.ok ⟨[n, h, w, 3],
      (tripleList n h w).flatMap fun p =>
        decodePixel (imgBin.data.getD ((p.1 * h + p.2.1) * w + p.2.2) 0)⟩

/-- The numpy row-slice assignment `imgBin[i, j] = v` on the flat data of a
`(n, h, w, 1)` array: every index in `[base, base + w)` is set to `v`, where
`base = (i*h + j)*w`. -/
def setRow (d : List Int) (base w : Nat) (v : Int) : List Int :=
  (List.range d.length).map fun idx =>
    if base ≤ idx ∧ idx < base + w then v else d.getD idx 0

/-- The channel slice `img[i, j, k, :]` of a `(n, h, w, c)` array,
materialized as the list of its `c` entries from the flat data. -/
def pixelSlice (img : NpArray) (h w c i j k : Nat) : List Int :=
  (List.range c).map fun t => img.data.getD (((i * h + j) * w + k) * c + t) 0

/-- One iteration of the encoder's innermost loop body at pixel `(i, j, k)`:
if the channel slice matches a registered color, the whole row slice
`imgBin[i, j]` is overwritten with the class index; otherwise the output is
untouched. -/
def encodeStep (img : NpArray) (h w c : Nat) (d : List Int)
    (p : Nat × Nat × Nat) : List Int :=
  match encodePixel (pixelSlice img h w c p.1 p.2.1 p.2.2) with
  | some v => setRow d ((p.1 * h + p.2.1) * w) w v
  | none => d

/-- Encoder `rgb2oneDimLabel` (`src/main.py` lines 258-345).  The source has
no shape validation: it reads `img.shape[0..2]` (an `IndexError` below rank
3), allocates zeros of shape `(n, h, w, 1)`, and runs the triple loop.  At
rank exactly 3 the first slice `img[i, j, k, :]` raises `IndexError`
(only reached when all three loop ranges are nonempty); at rank 4 the chain
compares the `c`-entry slice with the triplets (never equal when `c ≠ 3`);
at rank 5 and above `np.array_equal` always sees a shape mismatch, so no
branch ever fires and the zeros are returned. -/
def rgb2oneDimLabel (img : NpArray) : Except String NpArray :=
  if img.shape.length < 3 then
    Except.error "IndexError: tuple index out of range"
  else
    let n := img.shape.getD 0 0
    let h := img.shape.getD 1 0
    let w := img.shape.getD 2 0
    if img.shape.length = 3 ∧ n ≠ 0 ∧ h ≠ 0 ∧ w ≠ 0 then
      Except.error "IndexError: too many indices on array"
    else
      let c := img.shape.getD 3 0
      Except.ok ⟨[n, h, w, 1],
        if img.shape.length = 4 then
          (tripleList n h w).foldl (encodeStep img h w c)
            (List.replicate (n * h * w) 0)
        else
          List.replicate (n * h * w) 0⟩

/-- The class index a row ends up holding: the innermost loop writes the
whole row slice at every matching pixel, so the survivor is the last pixel
in the row whose color matched; `none` when no pixel of the row matched. -/
def rowLast (img : NpArray) (h w c i j : Nat) : Option Int :=
  ((List.range w).filterMap fun k => encodePixel (pixelSlice img h w c i j k)).getLast?

/-! ### Pixel-level facts about the two lookup chains -/

theorem decodePixel_table (v : Int) :
    decodePixel v = if 0 ≤ v ∧ v < 24 then lblColors.getD v.toNat [] else [0, 0, 0] := by
  by_cases h : 0 ≤ v ∧ v < 24
  · rw [if_pos h]
    obtain ⟨hlo, hhi⟩ := h
    interval_cases v <;> rfl
  · rw [if_neg h]
    have h0 : v ≠ 0 := by omega
    have h1 : v ≠ 1 := by omega
    have h2 : v ≠ 2 := by omega
    have h3 : v ≠ 3 := by omega
    have h4 : v ≠ 4 := by omega
    have h5 : v ≠ 5 := by omega
    have h6 : v ≠ 6 := by omega
    have h7 : v ≠ 7 := by omega
    have h8 : v ≠ 8 := by omega
    have h9 : v ≠ 9 := by omega
    have h10 : v ≠ 10 := by omega
    have h11 : v ≠ 11 := by omega
    have h12 : v ≠ 12 := by omega
    have h13 : v ≠ 13 := by omega
    have h14 : v ≠ 14 := by omega
    have h15 : v ≠ 15 := by omega
    have h16 : v ≠ 16 := by omega
    have h17 : v ≠ 17 := by omega
    have h18 : v ≠ 18 := by omega
    have h19 : v ≠ 19 := by omega
    have h20 : v ≠ 20 := by omega
    have h21 : v ≠ 21 := by omega
    have h22 : v ≠ 22 := by omega
    have h23 : v ≠ 23 := by omega
    unfold decodePixel
    rw [if_neg h0, if_neg h1, if_neg h2, if_neg h3, if_neg h4, if_neg h5, if_neg h6, if_neg h7, if_neg h8, if_neg h9, if_neg h10, if_neg h11, if_neg h12, if_neg h13, if_neg h14, if_neg h15, if_neg h16, if_neg h17, if_neg h18, if_neg h19, if_neg h20, if_neg h21, if_neg h22, if_neg h23]

theorem decodePixel_length (v : Int) : (decodePixel v).length = 3 := by
  rw [decodePixel_table]
  by_cases h : 0 ≤ v ∧ v < 24
  · rw [if_pos h]
    have hm : v.toNat < 24 := by omega
    revert hm
    generalize v.toNat = m
    intro hm
    interval_cases m <;> rfl
  · rw [if_neg h]
    rfl

theorem decodePixel_mem (v : Int) : decodePixel v ∈ lblColors := by
  rw [decodePixel_table]
  by_cases h : 0 ≤ v ∧ v < 24
  · rw [if_pos h]
    have hm : v.toNat < 24 := by omega
    revert hm
    generalize v.toNat = m
    intro hm
    interval_cases m <;> decide
  · rw [if_neg h]
    decide

theorem decodePixel_out_of_range (v : Int) (hv : v < 0 ∨ 23 < v) :
    decodePixel v = [0, 0, 0] := by
  rw [decodePixel_table, if_neg (by omega)]

theorem encode_decode (v : Int) (h0 : 0 ≤ v) (h23 : v ≤ 23) :
    encodePixel (decodePixel v) = some v := by
  interval_cases v <;> rfl

/-! ### `getLast?` helpers -/

theorem getLast?_cons_or {α : Type} (a : α) (l : List α) :
    (a :: l).getLast? = (l.getLast?).or (some a) := by
  induction l with
  | nil => rfl
  | cons b m _ =>
    rw [List.getLast?_cons_cons]
    have hne : (b :: m).getLast?.isSome := by
      rw [List.getLast?_isSome]
      simp
    rcases Option.isSome_iff_exists.mp hne with ⟨y, hy⟩
    rw [hy]
    rfl

theorem getD_getLast?_cons {α : Type} (a : α) (l : List α) (x : α) :
    ((a :: l).getLast?).getD x = (l.getLast?).getD a := by
  rw [getLast?_cons_or]
  cases l.getLast? <;> rfl

/-! ### Row-slice assignment -/

theorem setRow_length (d : List Int) (b w : Nat) (v : Int) :
    (setRow d b w v).length = d.length := by
  simp [setRow]

theorem setRow_getD_inside (d : List Int) (b w : Nat) (v : Int) (idx : Nat)
    (hb : b ≤ idx) (hw : idx < b + w) (hidx : idx < d.length) :
    (setRow d b w v).getD idx 0 = v := by
  have hlen : idx < (setRow d b w v).length := by rw [setRow_length]; exact hidx
  rw [List.getD_eq_getElem _ _ hlen]
  unfold setRow
  simp only [List.getElem_map, List.getElem_range]
  rw [if_pos ⟨hb, hw⟩]

theorem setRow_getD_outside (d : List Int) (b w : Nat) (v : Int) (idx : Nat)
    (h : ¬(b ≤ idx ∧ idx < b + w)) :
    (setRow d b w v).getD idx 0 = d.getD idx 0 := by
  rcases Nat.lt_or_ge idx d.length with hlt | hge
  · have hlen : idx < (setRow d b w v).length := by rw [setRow_length]; exact hlt
    rw [List.getD_eq_getElem _ _ hlen]
    unfold setRow
    simp only [List.getElem_map, List.getElem_range]
    rw [if_neg h, List.getD_eq_getElem _ _ hlt]
  · have hlen : (setRow d b w v).length ≤ idx := by rw [setRow_length]; exact hge
    rw [List.getD_eq_default _ _ hlen, List.getD_eq_default _ _ hge]

/-! ### The encoder loop body -/

theorem encodeStep_triple (img : NpArray) (h w c : Nat) (d : List Int)
    (i j k : Nat) :
    encodeStep img h w c d (i, j, k) =
      match encodePixel (pixelSlice img h w c i j k) with
      | some v => setRow d ((i * h + j) * w) w v
      | none => d := rfl

theorem encodeStep_length (img : NpArray) (h w c : Nat) (d : List Int)
    (i j k : Nat) : (encodeStep img h w c d (i, j, k)).length = d.length := by
  rw [encodeStep_triple]
  rcases hpx : encodePixel (pixelSlice img h w c i j k) with _ | v
  · rfl
  · exact setRow_length d _ w v

/-! ### Folding the loop body over one row of the iteration space -/

theorem rowfold_length (img : NpArray) (h w c i j : Nat) (ks : List Nat)
    (d : List Int) :
    ((ks.map fun k => (i, j, k)).foldl (encodeStep img h w c) d).length
      = d.length := by
  induction ks generalizing d with
  | nil => rfl
  | cons k ks ih =>
    simp only [List.map_cons, List.foldl_cons]
    rw [ih]
    exact encodeStep_length img h w c d i j k

theorem rowfold_getD_outside (img : NpArray) (h w c i j : Nat) (ks : List Nat)
    (d : List Int) (idx : Nat)
    (hout : ¬((i * h + j) * w ≤ idx ∧ idx < (i * h + j) * w + w)) :
    ((ks.map fun k => (i, j, k)).foldl (encodeStep img h w c) d).getD idx 0
      = d.getD idx 0 := by
  induction ks generalizing d with
  | nil => rfl
  | cons k ks ih =>
    simp only [List.map_cons, List.foldl_cons]
    rw [ih]
    rw [encodeStep_triple]
    rcases hpx : encodePixel (pixelSlice img h w c i j k) with _ | v
    · rfl
    · exact setRow_getD_outside d _ w v idx hout

theorem rowfold_getD_inside (img : NpArray) (h w c i j : Nat) (ks : List Nat)
    (d : List Int) (hlen : (i * h + j) * w + w ≤ d.length)
    (k' : Nat) (hk' : k' < w) :
    ((ks.map fun k => (i, j, k)).foldl (encodeStep img h w c) d).getD
        ((i * h + j) * w + k') 0
      = ((ks.filterMap fun k =>
            encodePixel (pixelSlice img h w c i j k)).getLast?).getD
          (d.getD ((i * h + j) * w + k') 0) := by
  induction ks generalizing d with
  | nil => rfl
  | cons k ks ih =>
    simp only [List.map_cons, List.foldl_cons, List.filterMap_cons]
    rcases hpx : encodePixel (pixelSlice img h w c i j k) with _ | v
    · rw [encodeStep_triple, hpx]
      exact ih d hlen
    · rw [encodeStep_triple, hpx]
      have hlen' : (i * h + j) * w + w ≤ (setRow d ((i * h + j) * w) w v).length := by
        rw [setRow_length]
        exact hlen
      rw [ih (setRow d ((i * h + j) * w) w v) hlen']
      rw [setRow_getD_inside d _ w v _ (Nat.le_add_right _ _)
        (Nat.add_lt_add_left hk' _)
        (Nat.lt_of_lt_of_le (Nat.add_lt_add_left hk' _) hlen)]
      rw [getD_getLast?_cons]

/-! ### Index arithmetic for the row blocks of the flat output -/

theorem rowBound (n h w i j : Nat) (hi : i < n) (hj : j < h) :
    (i * h + j) * w + w ≤ n * h * w := by
  have h1 : i * h + j + 1 ≤ n * h := by
    have h2 : (i + 1) * h ≤ n * h := mul_le_mul_right' (Nat.succ_le_of_lt hi) h
    rw [add_mul, one_mul] at h2
    omega
  calc (i * h + j) * w + w = (i * h + j + 1) * w := by ring
    _ ≤ (n * h) * w := mul_le_mul_right' h1 w
    _ = n * h * w := by ring

theorem pairIndex_ne (h i j i₂ j₂ : Nat) (hj : j < h) (hj₂ : j₂ < h)
    (hne : (i, j) ≠ (i₂, j₂)) : i * h + j ≠ i₂ * h + j₂ := by
  intro heq
  apply hne
  have hii : i = i₂ := by
    rcases Nat.lt_trichotomy i i₂ with hlt | he | hgt
    · exfalso
      have hm : (i + 1) * h ≤ i₂ * h := mul_le_mul_right' (Nat.succ_le_of_lt hlt) h
      rw [add_mul, one_mul] at hm
      omega
    · exact he
    · exfalso
      have hm : (i₂ + 1) * h ≤ i * h := mul_le_mul_right' (Nat.succ_le_of_lt hgt) h
      rw [add_mul, one_mul] at hm
      omega
  subst hii
  have hjj : j = j₂ := by omega
  rw [hjj]

theorem block_disjoint (w q q₂ k' : Nat) (hq : q ≠ q₂) (hk' : k' < w) :
    ¬(q₂ * w ≤ q * w + k' ∧ q * w + k' < q₂ * w + w) := by
  rintro ⟨h1, h2⟩
  rcases Nat.lt_trichotomy q q₂ with hlt | he | hgt
  · have hm : (q + 1) * w ≤ q₂ * w := mul_le_mul_right' (Nat.succ_le_of_lt hlt) w
    rw [add_mul, one_mul] at hm
    omega
  · exact hq he
  · have hm : (q₂ + 1) * w ≤ q * w := mul_le_mul_right' (Nat.succ_le_of_lt hgt) w
    rw [add_mul, one_mul] at hm
    omega

/-! ### Folding the loop body over the full iteration space -/

theorem foldl_flatMap {α β γ : Type} (g : γ → List α) (f : β → α → β)
    (l : List γ) (init : β) :
    (l.flatMap g).foldl f init
      = l.foldl (fun acc x => (g x).foldl f acc) init := by
  induction l generalizing init with
  | nil => rfl
  | cons x l ih =>
    rw [List.flatMap_cons, List.foldl_append, List.foldl_cons]
    exact ih _

theorem mem_pairList (n h i j : Nat) :
    (i, j) ∈ pairList n h ↔ i < n ∧ j < h := by
  simp only [pairList, List.mem_flatMap, List.mem_map, List.mem_range,
    Prod.mk.injEq]
  constructor
  · rintro ⟨a, ha, b, hb, hab⟩
    obtain ⟨ha', hb'⟩ := hab
    subst ha'
    subst hb'
    exact ⟨ha, hb⟩
  · rintro ⟨hi, hj⟩
    exact ⟨i, hi, j, hj, rfl, rfl⟩

theorem pairs_foldl_getD (img : NpArray) (n h w c : Nat)
    (pairs : List (Nat × Nat)) (d : List Int)
    (hd : d.length = n * h * w)
    (hmem : ∀ p ∈ pairs, p.1 < n ∧ p.2 < h)
    (i j : Nat) (hi : i < n) (hj : j < h) (k' : Nat) (hk' : k' < w) :
    (pairs.foldl
        (fun acc p => (rowTriples p.1 p.2 w).foldl (encodeStep img h w c) acc)
        d).getD ((i * h + j) * w + k') 0
      = if (i, j) ∈ pairs
          then (rowLast img h w c i j).getD (d.getD ((i * h + j) * w + k') 0)
          else d.getD ((i * h + j) * w + k') 0 := by
  induction pairs generalizing d with
  | nil => simp
  | cons p ps ih =>
    obtain ⟨i₂, j₂⟩ := p
    have hbound : (i₂, j₂).1 < n ∧ (i₂, j₂).2 < h := hmem _ (List.mem_cons_self _ _)
    have hmem' : ∀ q ∈ ps, q.1 < n ∧ q.2 < h := fun q hq =>
      hmem q (List.mem_cons_of_mem _ hq)
    rw [List.foldl_cons]
    have hd' : ((rowTriples i₂ j₂ w).foldl (encodeStep img h w c) d).length
        = n * h * w := by
      rw [rowTriples, rowfold_length]
      exact hd
    by_cases hep : (i, j) = (i₂, j₂)
    · obtain ⟨rfl, rfl⟩ := Prod.mk.injEq .. ▸ hep
      rw [ih _ hd' hmem']
      have hval : ((rowTriples i j w).foldl (encodeStep img h w c) d).getD
          ((i * h + j) * w + k') 0
          = (rowLast img h w c i j).getD (d.getD ((i * h + j) * w + k') 0) := by
        rw [rowTriples]
        rw [rowfold_getD_inside img h w c i j (List.range w) d
          (hd ▸ rowBound n h w i j hi hj) k' hk']
        rfl
      rw [hval]
      simp only [List.mem_cons, true_or, if_true]
      by_cases hmemps : (i, j) ∈ ps
      · rw [if_pos hmemps]
        cases rowLast img h w c i j <;> rfl
      · rw [if_neg hmemps]
    · have hdval : ((rowTriples i₂ j₂ w).foldl (encodeStep img h w c) d).getD
          ((i * h + j) * w + k') 0 = d.getD ((i * h + j) * w + k') 0 := by
        rw [rowTriples]
        apply rowfold_getD_outside
        exact block_disjoint w (i * h + j) (i₂ * h + j₂) k'
          (pairIndex_ne h i j i₂ j₂ hj hbound.2 hep) hk'
      rw [ih _ hd' hmem', hdval]
      simp only [List.mem_cons, hep, false_or]

/-! ### Indexing uniform-width concatenations -/

theorem flatMap_uniform_length {α β : Type} (f : α → List β) (m : Nat)
    (l : List α) (hm : ∀ x ∈ l, (f x).length = m) :
    (l.flatMap f).length = l.length * m := by
  induction l with
  | nil => simp
  | cons x xs ih =>
    rw [List.flatMap_cons, List.length_append,
      ih fun y hy => hm y (List.mem_cons_of_mem _ hy),
      hm x (List.mem_cons_self _ _), List.length_cons]
    ring

theorem flatMap_uniform_getD {α β : Type} (f : α → List β) (m : Nat)
    (l : List α) (hm : ∀ x ∈ l, (f x).length = m)
    (q t : Nat) (hq : q < l.length) (ht : t < m) (da : α) (db : β) :
    (l.flatMap f).getD (q * m + t) db = (f (l.getD q da)).getD t db := by
  induction l generalizing q with
  | nil => simp at hq
  | cons x xs ih =>
    rw [List.flatMap_cons]
    have hx : (f x).length = m := hm x (List.mem_cons_self _ _)
    cases q with
    | zero =>
      rw [Nat.zero_mul, Nat.zero_add,
        List.getD_append _ _ _ _ (by rw [hx]; exact ht)]
      rfl
    | succ q =>
      have harith : (q + 1) * m + t - m = q * m + t := by
        rw [Nat.succ_mul]
        omega
      have hge : (f x).length ≤ (q + 1) * m + t := by
        rw [hx, Nat.succ_mul]
        omega
      rw [List.getD_append_right _ _ _ _ hge, hx, harith,
        ih (fun y hy => hm y (List.mem_cons_of_mem _ hy)) q
          (Nat.lt_of_succ_lt_succ hq)]
      rfl

theorem range_getD (n i : Nat) (hi : i < n) : (List.range n).getD i 0 = i := by
  rw [List.getD_eq_getElem _ _ (by simpa using hi)]
  simp

/-! ### Indexing the iteration-space lists -/

theorem rowTriples_length (i j w : Nat) : (rowTriples i j w).length = w := by
  simp [rowTriples]

theorem pairList_length (n h : Nat) : (pairList n h).length = n * h := by
  rw [pairList, flatMap_uniform_length _ h _ (fun x _ => by simp),
    List.length_range]

theorem tripleList_length (n h w : Nat) : (tripleList n h w).length = n * h * w := by
  rw [tripleList,
    flatMap_uniform_length _ w _ (fun p _ => rowTriples_length p.1 p.2 w),
    pairList_length]

theorem pairIndex_lt (n h i j : Nat) (hi : i < n) (hj : j < h) :
    i * h + j < n * h := by
  have h2 : (i + 1) * h ≤ n * h := mul_le_mul_right' (Nat.succ_le_of_lt hi) h
  rw [add_mul, one_mul] at h2
  omega

theorem tripleIndex_lt (n h w i j k : Nat) (hi : i < n) (hj : j < h)
    (hk : k < w) : (i * h + j) * w + k < n * h * w :=
  Nat.lt_of_lt_of_le (Nat.add_lt_add_left hk _) (rowBound n h w i j hi hj)

theorem pairList_getD (n h i j : Nat) (hi : i < n) (hj : j < h) :
    (pairList n h).getD (i * h + j) (0, 0) = (i, j) := by
  rw [pairList,
    flatMap_uniform_getD _ h _ (fun x _ => by simp) i j (by simpa using hi)
      hj 0 (0, 0),
    range_getD n i hi, List.getD_eq_getElem _ _ (by simpa using hj)]
  simp

theorem tripleList_getD (n h w i j k : Nat) (hi : i < n) (hj : j < h)
    (hk : k < w) :
    (tripleList n h w).getD ((i * h + j) * w + k) (0, 0, 0) = (i, j, k) := by
  rw [tripleList,
    flatMap_uniform_getD _ w _ (fun p _ => rowTriples_length p.1 p.2 w)
      (i * h + j) k (by rw [pairList_length]; exact pairIndex_lt n h i j hi hj)
      hk (0, 0) (0, 0, 0),
    pairList_getD n h i j hi hj, rowTriples,
    List.getD_eq_getElem _ _ (by simpa using hk)]
  simp

theorem replicate_getD (m idx : Nat) :
    (List.replicate m (0 : Int)).getD idx 0 = 0 := by
  rcases Nat.lt_or_ge idx m with hlt | hge
  · rw [List.getD_eq_getElem _ _ (by simpa using hlt)]
    simp
  · rw [List.getD_eq_default _ _ (by simpa using hge)]

/-! ### Behaviour of the two converters on well-shaped input -/

theorem pairsfold_length (img : NpArray) (h w c : Nat)
    (pairs : List (Nat × Nat)) (d : List Int) :
    (pairs.foldl
        (fun acc p => (rowTriples p.1 p.2 w).foldl (encodeStep img h w c) acc)
        d).length = d.length := by
  induction pairs generalizing d with
  | nil => rfl
  | cons p ps ih =>
    rw [List.foldl_cons, ih, rowTriples, rowfold_length]

theorem rgb2oneDimLabel_spec (img : NpArray) (n h w c : Nat)
    (hs : img.shape = [n, h, w, c]) :
    ∃ o, rgb2oneDimLabel img = Except.ok o ∧ o.shape = [n, h, w, 1] ∧
      o.data.length = n * h * w ∧
      ∀ i j k, i < n → j < h → k < w →
        o.data.getD ((i * h + j) * w + k) 0
          = (rowLast img h w c i j).getD 0 := by
  have hfold : (tripleList n h w).foldl (encodeStep img h w c)
      (List.replicate (n * h * w) 0)
      = (pairList n h).foldl
          (fun acc p => (rowTriples p.1 p.2 w).foldl (encodeStep img h w c) acc)
          (List.replicate (n * h * w) 0) :=
    foldl_flatMap _ _ _ _
  have heq : rgb2oneDimLabel img = Except.ok ⟨[n, h, w, 1],
      (tripleList n h w).foldl (encodeStep img h w c)
        (List.replicate (n * h * w) 0)⟩ := by
    simp [rgb2oneDimLabel, hs]
  refine ⟨_, heq, rfl, ?_, ?_⟩
  · rw [hfold, pairsfold_length, List.length_replicate]
  · intro i j k hi hj hk
    rw [hfold, pairs_foldl_getD img n h w c (pairList n h)
      (List.replicate (n * h * w) 0) (List.length_replicate _ _)
      (fun p hp => by
        obtain ⟨a, b⟩ := p
        exact (mem_pairList n h a b).mp hp)
      i j hi hj k hk,
      if_pos ((mem_pairList n h i j).mpr ⟨hi, hj⟩), replicate_getD]

theorem oneDim2rgbLabel_spec (imgBin : NpArray) (n h w : Nat)
    (hs : imgBin.shape = [n, h, w, 1]) :
    ∃ o, oneDim2rgbLabel imgBin = Except.ok o ∧ o.shape = [n, h, w, 3] ∧
      o.data.length = n * h * w * 3 ∧
      ∀ i j k t, i < n → j < h → k < w → t < 3 →
        o.data.getD (((i * h + j) * w + k) * 3 + t) 0
          = (decodePixel (imgBin.data.getD ((i * h + j) * w + k) 0)).getD t 0 := by
  have heq : oneDim2rgbLabel imgBin = Except.ok ⟨[n, h, w, 3],
      (tripleList n h w).flatMap fun p =>
        decodePixel (imgBin.data.getD ((p.1 * h + p.2.1) * w + p.2.2) 0)⟩ := by
    simp [oneDim2rgbLabel, hs]
  refine ⟨_, heq, rfl, ?_, ?_⟩
  · rw [flatMap_uniform_length _ 3 _ (fun p _ => decodePixel_length _),
      tripleList_length]
  · intro i j k t hi hj hk ht
    rw [flatMap_uniform_getD _ 3 _ (fun p _ => decodePixel_length _)
      ((i * h + j) * w + k) t
      (by rw [tripleList_length]; exact tripleIndex_lt n h w i j k hi hj hk)
      ht (0, 0, 0) 0,
      tripleList_getD n h w i j k hi hj hk]

/-! ### Bridging decoder output pixels back into the encoder -/

theorem list3_eta (l : List Int) (hl : l.length = 3) :
    (List.range 3).map (fun t => l.getD t 0) = l := by
  match l with
  | [a, b, c] => rfl
  | [] => simp at hl
  | [a] => simp at hl
  | [a, b] => simp at hl
  | a :: b :: c :: d :: rest =>
    exfalso
    simp only [List.length_cons] at hl
    omega

theorem decoder_pixelSlice (imgBin o : NpArray) (n h w : Nat)
    (hs : imgBin.shape = [n, h, w, 1])
    (ho : oneDim2rgbLabel imgBin = Except.ok o)
    (i j k : Nat) (hi : i < n) (hj : j < h) (hk : k < w) :
    pixelSlice o h w 3 i j k
      = decodePixel (imgBin.data.getD ((i * h + j) * w + k) 0) := by
  obtain ⟨o', ho', hsh, hlen, hval⟩ := oneDim2rgbLabel_spec imgBin n h w hs
  rw [ho] at ho'
  obtain rfl : o = o' := by
    injection ho'
  have hmap : (List.range 3).map
        (fun t => o.data.getD (((i * h + j) * w + k) * 3 + t) 0)
      = (List.range 3).map
          (fun t => (decodePixel
            (imgBin.data.getD ((i * h + j) * w + k) 0)).getD t 0) := by
    apply List.map_congr_left
    intro t htr
    exact hval i j k t hi hj hk (by simpa using htr)
  rw [pixelSlice, hmap, list3_eta _ (decodePixel_length _)]

/-! ### List extensionality through `getD`, and flat-index decomposition -/

theorem list_ext_getD (l₁ l₂ : List Int) (hlen : l₁.length = l₂.length)
    (hval : ∀ idx, idx < l₁.length → l₁.getD idx 0 = l₂.getD idx 0) :
    l₁ = l₂ := by
  apply List.ext_getElem hlen
  intro idx h1 h2
  have hv := hval idx h1
  rwa [List.getD_eq_getElem _ _ h1, List.getD_eq_getElem _ _ h2] at hv

theorem NpArray_ext (a b : NpArray) (h1 : a.shape = b.shape)
    (h2 : a.data = b.data) : a = b := by
  cases a
  cases b
  simp only [NpArray.mk.injEq]
  exact ⟨h1, h2⟩

theorem idx_decompose (n h w idx : Nat) (hidx : idx < n * h * w) :
    ∃ i j k, i < n ∧ j < h ∧ k < w ∧ idx = (i * h + j) * w + k := by
  have hw : 0 < w := by
    rcases Nat.eq_zero_or_pos w with h0 | h0
    · subst h0
      simp at hidx
    · exact h0
  have hh : 0 < h := by
    rcases Nat.eq_zero_or_pos h with h0 | h0
    · subst h0
      simp at hidx
    · exact h0
  refine ⟨idx / (h * w), idx % (h * w) / w, idx % (h * w) % w, ?_, ?_, ?_, ?_⟩
  · rw [Nat.div_lt_iff_lt_mul (Nat.mul_pos hh hw)]
    calc idx < n * h * w := hidx
      _ = n * (h * w) := by ring
  · rw [Nat.div_lt_iff_lt_mul hw]
    exact Nat.mod_lt _ (Nat.mul_pos hh hw)
  · exact Nat.mod_lt _ hw
  · have e1 := Nat.div_add_mod idx (h * w)
    have e2 := Nat.div_add_mod (idx % (h * w)) w
    calc idx = h * w * (idx / (h * w)) + idx % (h * w) := e1.symm
      _ = h * w * (idx / (h * w))
            + (w * (idx % (h * w) / w) + idx % (h * w) % w) := by rw [e2]
      _ = (idx / (h * w) * h + idx % (h * w) / w) * w + idx % (h * w) % w := by
            ring

/-! ### `rowLast` on uniform and on unmatched rows -/

theorem filterMap_const_getLast? {α : Type} (f : α → Option Int) (v : Int)
    (l : List α) (hne : l ≠ []) (hall : ∀ x ∈ l, f x = some v) :
    (l.filterMap f).getLast? = some v := by
  induction l with
  | nil => cases hne rfl
  | cons x xs ih =>
    rw [List.filterMap_cons, hall x (List.mem_cons_self _ _), getLast?_cons_or]
    rcases eq_or_ne xs [] with rfl | hxs
    · rfl
    · rw [ih hxs fun y hy => hall y (List.mem_cons_of_mem _ hy)]
      rfl

theorem filterMap_none_getLast? {α : Type} (f : α → Option Int)
    (l : List α) (hall : ∀ x ∈ l, f x = none) :
    (l.filterMap f).getLast? = none := by
  have hnil : l.filterMap f = [] := by
    rw [List.filterMap_eq_nil_iff]
    exact hall
  rw [hnil]
  rfl

/-! ### The claims -/

/-- Claim C1 counterexample: the round trip is NOT the identity on every
in-range `(N, H, W, 1)` mask.  For the mask `[[[[0], [1]]]]` (one 1×2 row
holding classes 0 and 1) the decoder yields black then paved-area, but the
encoder's row-wide write `imgBin[i, j] = v` lets the last matching pixel of
the row (class 1) overwrite the whole row, returning `[[[[1], [1]]]]`. -/
theorem C1_counterexample :
    oneDim2rgbLabel ⟨[1, 1, 2, 1], [0, 1]⟩
        = Except.ok ⟨[1, 1, 2, 3], [0, 0, 0, 128, 64, 128]⟩ ∧
    rgb2oneDimLabel ⟨[1, 1, 2, 3], [0, 0, 0, 128, 64, 128]⟩
        = Except.ok ⟨[1, 1, 2, 1], [1, 1]⟩ ∧
    NpArray.mk [1, 1, 2, 1] [1, 1] ≠ NpArray.mk [1, 1, 2, 1] [0, 1] :=
  ⟨rfl, rfl, by decide⟩

/-- Claim C1 (amended): for every IndexMask of shape `(N, H, W, 1)` with all
values in `[0, 23]` that is additionally constant along each row (all `W`
values of a row equal), applying the Decoder and then the Encoder returns the
original mask. -/
theorem C1_roundtrip_row_constant (M : NpArray) (n h w : Nat)
    (hs : M.shape = [n, h, w, 1]) (hd : M.data.length = n * h * w)
    (hrange : ∀ idx < n * h * w,
      0 ≤ M.data.getD idx 0 ∧ M.data.getD idx 0 ≤ 23)
    (hrow : ∀ i < n, ∀ j < h, ∀ k₁ < w, ∀ k₂ < w,
      M.data.getD ((i * h + j) * w + k₁) 0
        = M.data.getD ((i * h + j) * w + k₂) 0) :
    ∃ D, oneDim2rgbLabel M = Except.ok D ∧ rgb2oneDimLabel D = Except.ok M := by
  obtain ⟨D, hD, hDsh, hDlen, hDval⟩ := oneDim2rgbLabel_spec M n h w hs
  refine ⟨D, hD, ?_⟩
  obtain ⟨O, hO, hOsh, hOlen, hOval⟩ := rgb2oneDimLabel_spec D n h w 3 hDsh
  rw [hO]
  have hdata : O.data = M.data := by
    apply list_ext_getD _ _ (by rw [hOlen, hd])
    intro idx hidx
    rw [hOlen] at hidx
    obtain ⟨i, j, k, hi, hj, hk, rfl⟩ := idx_decompose n h w idx hidx
    rw [hOval i j k hi hj hk]
    have hlast : rowLast D h w 3 i j
        = some (M.data.getD ((i * h + j) * w + k) 0) := by
      rw [rowLast]
      apply filterMap_const_getLast?
      · intro hcon
        rw [List.range_eq_nil] at hcon
        omega
      · intro k₀ hk₀r
        have hk₀ : k₀ < w := List.mem_range.mp hk₀r
        rw [decoder_pixelSlice M D n h w hs hD i j k₀ hi hj hk₀,
          hrow i hi j hj k₀ hk₀ k hk]
        exact encode_decode _
          (hrange _ (tripleIndex_lt n h w i j k hi hj hk)).1
          (hrange _ (tripleIndex_lt n h w i j k hi hj hk)).2
    rw [hlast]
    rfl
  exact congrArg Except.ok (NpArray_ext O M (by rw [hOsh, hs]) hdata)

/-- Witness for C1 (amended): the row-constant mask `[[[[5],[5]],[[7],[7]]]]`
(one 2×2 image, rows `5 5` and `7 7`) survives the round trip. -/
theorem C1_roundtrip_row_constant_witness :
    ∃ D, oneDim2rgbLabel ⟨[1, 2, 2, 1], [5, 5, 7, 7]⟩ = Except.ok D ∧
      rgb2oneDimLabel D = Except.ok ⟨[1, 2, 2, 1], [5, 5, 7, 7]⟩ :=
  C1_roundtrip_row_constant ⟨[1, 2, 2, 1], [5, 5, 7, 7]⟩ 1 2 2 rfl rfl
    (by decide) (by decide)

/-- Claim C2: the spec demands that the Decoder fail with `OutOfRangeError`
on a mask value of 24 instead of producing output; the code has no range
check at all, matches no branch of the if/elif chain, and returns the
zero-initialized black triplet `(0, 0, 0)` for that pixel — exactly the
silent behaviour the spec forbids.  This theorem evaluates the code at the
failing input. -/
theorem C2_value24_black :
    oneDim2rgbLabel ⟨[1, 1, 1, 1], [24]⟩
      = Except.ok ⟨[1, 1, 1, 3], [0, 0, 0]⟩ := rfl

/-- Claim C3: in every Encoder output, any two entries of the same row are
equal, and their common value is the class of the last pixel in the row whose
color matched a registered color (`rowLast`), or the zero default when no
pixel of the row matched. -/
theorem C3_row_uniform (img : NpArray) (n h w c : Nat)
    (hs : img.shape = [n, h, w, c]) (i j k₁ k₂ : Nat)
    (hi : i < n) (hj : j < h) (hk₁ : k₁ < w) (hk₂ : k₂ < w) :
    ∃ o, rgb2oneDimLabel img = Except.ok o ∧
      o.data.getD ((i * h + j) * w + k₁) 0
        = o.data.getD ((i * h + j) * w + k₂) 0 ∧
      o.data.getD ((i * h + j) * w + k₁) 0 = (rowLast img h w c i j).getD 0 := by
  obtain ⟨o, ho, _, _, hval⟩ := rgb2oneDimLabel_spec img n h w c hs
  exact ⟨o, ho,
    by rw [hval i j k₁ hi hj hk₁, hval i j k₂ hi hj hk₂],
    hval i j k₁ hi hj hk₁⟩

/-- Witness for C3: on the 1×1×2 color image `paved-area, (99,99,99)` both
entries of the single output row agree and equal the last matching class. -/
theorem C3_row_uniform_witness :
    ∃ o, rgb2oneDimLabel ⟨[1, 1, 2, 3], [128, 64, 128, 99, 99, 99]⟩
        = Except.ok o ∧
      o.data.getD 0 0 = o.data.getD 1 0 ∧
      o.data.getD 0 0
        = (rowLast ⟨[1, 1, 2, 3], [128, 64, 128, 99, 99, 99]⟩ 1 2 3 0 0).getD 0 :=
  C3_row_uniform ⟨[1, 1, 2, 3], [128, 64, 128, 99, 99, 99]⟩ 1 1 2 3 rfl
    0 0 0 1 (by decide) (by decide) (by decide) (by decide)

/-- Claim C4 counterexample: the Encoder does NOT reject an input whose
trailing axis is not 3.  On the rank-4 array of shape `(1,1,1,2)` with pixel
`(5,5)` it runs to completion and returns the all-zero index mask instead of
an error. -/
theorem C4_counterexample :
    rgb2oneDimLabel ⟨[1, 1, 1, 2], [5, 5]⟩
      = Except.ok ⟨[1, 1, 1, 1], [0]⟩ := rfl

/-- Claim C4 (amended): the Decoder does validate eagerly at the batch
boundary — any input of rank other than 4 raises `TypeError`, and any rank-4
input whose trailing axis is not 1 raises `ValueError`, before any pixel is
processed.  The Encoder performs no shape validation at all: every rank-4
input, whatever its trailing axis size, is processed to completion and
returns an output. -/
theorem C4_shape_checks (a : NpArray) :
    (a.shape.length ≠ 4 →
      oneDim2rgbLabel a = Except.error "TypeError: Array is not 4D") ∧
    (a.shape.length = 4 → a.shape.getD 3 0 ≠ 1 →
      oneDim2rgbLabel a = Except.error
        "ValueError: Array must have format (numImg, width, height, 1)") ∧
    (∀ n h w c, a.shape = [n, h, w, c] →
      ∃ o, rgb2oneDimLabel a = Except.ok o) := by
  refine ⟨?_, ?_, ?_⟩
  · intro h4
    rw [oneDim2rgbLabel, if_pos h4]
  · intro h4 h1
    rw [oneDim2rgbLabel, if_neg (fun hc => hc h4), if_pos h1]
  · intro n h w c hs
    obtain ⟨o, ho, _⟩ := rgb2oneDimLabel_spec a n h w c hs
    exact ⟨o, ho⟩

/-- Witness for C4 (amended): a rank-3 array trips the Decoder's
`TypeError`, a rank-4 array with trailing axis 2 trips its `ValueError`, and
the same trailing-axis-2 array sails through the Encoder. -/
theorem C4_shape_checks_witness :
    oneDim2rgbLabel ⟨[1, 2, 2], [0, 1, 2, 3]⟩
        = Except.error "TypeError: Array is not 4D" ∧
    oneDim2rgbLabel ⟨[1, 1, 1, 2], [5, 5]⟩
        = Except.error
            "ValueError: Array must have format (numImg, width, height, 1)" ∧
    ∃ o, rgb2oneDimLabel ⟨[1, 1, 1, 2], [5, 5]⟩ = Except.ok o :=
  ⟨(C4_shape_checks ⟨[1, 2, 2], [0, 1, 2, 3]⟩).1 (by decide),
   (C4_shape_checks ⟨[1, 1, 1, 2], [5, 5]⟩).2.1 rfl (by decide),
   (C4_shape_checks ⟨[1, 1, 1, 2], [5, 5]⟩).2.2 1 1 1 2 rfl⟩

/-- Claim C5: the label mapping is a bijection.  Encoding each decoded class
index returns that index (`indexOf (colorOf i) = i` on `0..23`), decoding
each encoded registered color returns that color (`colorOf (indexOf c) = c`
on the 24 triplets), the 24 triplets are pairwise distinct, and there are
exactly 24 of them. -/
theorem C5_bijection :
    ((List.range 24).map fun v => encodePixel (decodePixel (v : Int)))
        = (List.range 24).map (fun v => some (v : Int)) ∧
    (lblColors.map fun px => (encodePixel px).map decodePixel)
        = lblColors.map some ∧
    lblColors.Nodup ∧ lblColors.length = 24 :=
  ⟨rfl, rfl, by decide, rfl⟩

/-- Claim C6 counterexample: the shapes are off by the singleton channel
axis.  The Decoder maps shape `(1,1,1,1)` to `(1,1,1,3)`, which is not the
input shape with a trailing 3 appended (`(1,1,1,1,3)`); the Encoder maps
`(1,1,1,3)` to `(1,1,1,1)`, which is not the input shape with the trailing
axis removed (`(1,1,1)`). -/
theorem C6_counterexample :
    oneDim2rgbLabel ⟨[1, 1, 1, 1], [0]⟩
        = Except.ok ⟨[1, 1, 1, 3], [0, 0, 0]⟩ ∧
    ([1, 1, 1, 3] : List Nat) ≠ [1, 1, 1, 1] ++ [3] ∧
    rgb2oneDimLabel ⟨[1, 1, 1, 3], [0, 0, 0]⟩
        = Except.ok ⟨[1, 1, 1, 1], [0]⟩ ∧
    ([1, 1, 1, 1] : List Nat) ≠ List.dropLast [1, 1, 1, 3] :=
  ⟨rfl, by decide, rfl, by decide⟩

/-- Claim C6 (amended): the Decoder's output shape equals the input shape
with its trailing size-1 axis replaced by a size-3 axis, and the Encoder's
output shape equals the input shape with its trailing axis replaced by a
size-1 axis. -/
theorem C6_shapes (a : NpArray) (n h w : Nat) :
    (a.shape = [n, h, w, 1] → ∃ o, oneDim2rgbLabel a = Except.ok o ∧
      o.shape = a.shape.dropLast ++ [3]) ∧
    (∀ c, a.shape = [n, h, w, c] → ∃ o, rgb2oneDimLabel a = Except.ok o ∧
      o.shape = a.shape.dropLast ++ [1]) := by
  constructor
  · intro hs
    obtain ⟨o, ho, hsh, _⟩ := oneDim2rgbLabel_spec a n h w hs
    refine ⟨o, ho, ?_⟩
    rw [hsh, hs]
    rfl
  · intro c hs
    obtain ⟨o, ho, hsh, _⟩ := rgb2oneDimLabel_spec a n h w c hs
    refine ⟨o, ho, ?_⟩
    rw [hsh, hs]
    rfl

/-- Witness for C6 (amended): concrete shapes `(1,1,1,1) ↦ (1,1,1,3)` for
the Decoder and `(1,1,1,3) ↦ (1,1,1,1)` for the Encoder. -/
theorem C6_shapes_witness :
    (∃ o, oneDim2rgbLabel ⟨[1, 1, 1, 1], [0]⟩ = Except.ok o ∧
      o.shape = List.dropLast [1, 1, 1, 1] ++ [3]) ∧
    (∃ o, rgb2oneDimLabel ⟨[1, 1, 1, 3], [0, 0, 0]⟩ = Except.ok o ∧
      o.shape = List.dropLast [1, 1, 1, 3] ++ [1]) :=
  ⟨(C6_shapes ⟨[1, 1, 1, 1], [0]⟩ 1 1 1).1 rfl,
   (C6_shapes ⟨[1, 1, 1, 3], [0, 0, 0]⟩ 1 1 1).2 3 rfl⟩

/-- Claim C7: on the single 2×2 index image with values `0, 1, 2, 3` (stored
with the required trailing singleton axis, shape `(1,2,2,1)`), the Decoder
produces the four pixels `(0,0,0)`, `(128,64,128)`, `(0,76,130)`,
`(0,102,0)` in order. -/
theorem C7_concrete_scenario :
    oneDim2rgbLabel ⟨[1, 2, 2, 1], [0, 1, 2, 3]⟩
      = Except.ok ⟨[1, 2, 2, 3],
          [0, 0, 0, 128, 64, 128, 0, 76, 130, 0, 102, 0]⟩ := rfl

/-- Claim C8 counterexample: an unmatched pixel does NOT always end up as
class 0.  In the 1×2 row `paved-area, (99,99,99)` the second pixel matches
no registered color, yet its output entry is 1, inherited from the row-wide
write fired by the first pixel. -/
theorem C8_counterexample :
    encodePixel (pixelSlice ⟨[1, 1, 2, 3], [128, 64, 128, 99, 99, 99]⟩
        1 2 3 0 0 1) = none ∧
    rgb2oneDimLabel ⟨[1, 1, 2, 3], [128, 64, 128, 99, 99, 99]⟩
        = Except.ok ⟨[1, 1, 2, 1], [1, 1]⟩ ∧
    (1 : Int) ≠ 0 :=
  ⟨rfl, rfl, by decide⟩

/-- Claim C8 (amended): a pixel whose triplet matches no registered color
contributes no write; its output entry holds the row's final value — the
class of the last matching pixel of its row — and keeps the zero-initialized
default 0 exactly when no pixel of its row matches any registered color. -/
theorem C8_unmatched_default (img : NpArray) (n h w c : Nat)
    (hs : img.shape = [n, h, w, c]) (i j k : Nat)
    (hi : i < n) (hj : j < h) (hk : k < w)
    (_hpx : encodePixel (pixelSlice img h w c i j k) = none) :
    ∃ o, rgb2oneDimLabel img = Except.ok o ∧
      o.data.getD ((i * h + j) * w + k) 0 = (rowLast img h w c i j).getD 0 ∧
      ((∀ k' < w, encodePixel (pixelSlice img h w c i j k') = none) →
        o.data.getD ((i * h + j) * w + k) 0 = 0) := by
  obtain ⟨o, ho, _, _, hval⟩ := rgb2oneDimLabel_spec img n h w c hs
  refine ⟨o, ho, hval i j k hi hj hk, fun hall => ?_⟩
  rw [hval i j k hi hj hk, rowLast,
    filterMap_none_getLast? _ _
      (fun k' hk' => hall k' (List.mem_range.mp hk'))]
  rfl

/-- Witness for C8 (amended): the single unregistered pixel `(99,99,99)`
alone in its row keeps output value 0. -/
theorem C8_unmatched_default_witness :
    ∃ o, rgb2oneDimLabel ⟨[1, 1, 1, 3], [99, 99, 99]⟩ = Except.ok o ∧
      o.data.getD 0 0
        = (rowLast ⟨[1, 1, 1, 3], [99, 99, 99]⟩ 1 1 3 0 0).getD 0 ∧
      ((∀ k' < 1, encodePixel
          (pixelSlice ⟨[1, 1, 1, 3], [99, 99, 99]⟩ 1 1 3 0 0 k') = none) →
        o.data.getD 0 0 = 0) :=
  C8_unmatched_default ⟨[1, 1, 1, 3], [99, 99, 99]⟩ 1 1 1 3 rfl 0 0 0
    (by decide) (by decide) (by decide) rfl

/-- Claim C9: the Decoder is total on every rank-4 input with trailing axis
1, whatever integers the mask holds: it returns `Except.ok`, every output
pixel triplet is one of the 24 registered colors, and a mask value outside
`[0, 23]` yields the black triplet `(0,0,0)` — indistinguishable from class
0. -/
theorem C9_decoder_total (imgBin : NpArray) (n h w : Nat)
    (hs : imgBin.shape = [n, h, w, 1]) (i j k : Nat)
    (hi : i < n) (hj : j < h) (hk : k < w) :
    ∃ o, oneDim2rgbLabel imgBin = Except.ok o ∧
      pixelSlice o h w 3 i j k ∈ lblColors ∧
      (imgBin.data.getD ((i * h + j) * w + k) 0 < 0 ∨
          23 < imgBin.data.getD ((i * h + j) * w + k) 0 →
        pixelSlice o h w 3 i j k = [0, 0, 0]) := by
  obtain ⟨o, ho, hsh, hlen, hval⟩ := oneDim2rgbLabel_spec imgBin n h w hs
  have hps := decoder_pixelSlice imgBin o n h w hs ho i j k hi hj hk
  refine ⟨o, ho, ?_, fun hr => ?_⟩
  · rw [hps]
    exact decodePixel_mem _
  · rw [hps]
    exact decodePixel_out_of_range _ hr

/-- Witness for C9: the out-of-range mask value 24 decodes without error to
the black triplet. -/
theorem C9_decoder_total_witness :
    ∃ o, oneDim2rgbLabel ⟨[1, 1, 1, 1], [24]⟩ = Except.ok o ∧
      pixelSlice o 1 1 3 0 0 0 ∈ lblColors ∧
      ((24 : Int) < 0 ∨ (23 : Int) < 24 →
        pixelSlice o 1 1 3 0 0 0 = [0, 0, 0]) :=
  C9_decoder_total ⟨[1, 1, 1, 1], [24]⟩ 1 1 1 rfl 0 0 0
    (by decide) (by decide) (by decide)

/-- Claim C10: both converters are pure functions of their input in this
embedding — they consult no state other than the argument and the constant
label table, so two calls on identical input return identical results. -/
theorem C10_deterministic (a : NpArray) :
    oneDim2rgbLabel a = oneDim2rgbLabel a ∧
      rgb2oneDimLabel a = rgb2oneDimLabel a :=
  ⟨rfl, rfl⟩

/-- Witness for C10 at a concrete input. -/
theorem C10_deterministic_witness :
    oneDim2rgbLabel ⟨[1, 1, 1, 1], [0]⟩ = oneDim2rgbLabel ⟨[1, 1, 1, 1], [0]⟩ ∧
      rgb2oneDimLabel ⟨[1, 1, 1, 1], [0]⟩
        = rgb2oneDimLabel ⟨[1, 1, 1, 1], [0]⟩ :=
  C10_deterministic ⟨[1, 1, 1, 1], [0]⟩
